import Mathlib

/-! Verification development for the coupon-detection engine of this
    repository (`src/coupon_detector.py`).  Python strings are modelled as
    `List Char`, Python floats as `ℚ`, and the `re` pattern table as values
    of a small regular-expression AST evaluated with Python-style leftmost,
    greedy, backtracking semantics.  Unicode-dependent pieces of Python
    (`str.upper`, the `\w`, `\s`, `\d` classes) are modelled at the ASCII
    level through `Char.toUpper`, `Char.isWhitespace`, `Char.isDigit` and
    `Char.isAlphanum`. -/

namespace CouponDetector

/-- Model of Python `str.upper`, applied characterwise. -/
def upperL (l : List Char) : List Char := l.map Char.toUpper

/-- Whitespace test used for the `\s` class, `re.sub(r'\s+', ' ', ·)` and
    `str.strip`. -/
def isSp (c : Char) : Bool := c.isWhitespace

/-- Worker for `collapse`; the flag records whether the previous character
    was whitespace (in which case further whitespace is dropped). -/
def collapseGo : Bool → List Char → List Char
  | _, [] => []
  | inSp, c :: cs =>
    if isSp c then
      if inSp then collapseGo true cs else ' ' :: collapseGo true cs
    else c :: collapseGo false cs

/-- Model of `re.sub(r'\s+', ' ', text)`: every maximal whitespace run is
    replaced by a single space. -/
def collapse (l : List Char) : List Char := collapseGo false l

/-- Worker for `replaceAll`.  The fuel only serves structural recursion;
    any fuel of at least the list length gives the replacement scan. -/
def replaceAllGo (pat rep : List Char) : Nat → List Char → List Char
  | _, [] => []
  | 0, l => l
  | fuel + 1, c :: cs =>
    if 0 < pat.length ∧ pat.isPrefixOf (c :: cs) then
      rep ++ replaceAllGo pat rep fuel ((c :: cs).drop pat.length)
    else
      c :: replaceAllGo pat rep fuel cs

/-- Model of Python `str.replace(pat, rep)` for a non-empty `pat` (all the
    entity patterns in `clean_text` are non-empty): non-overlapping
    occurrences are replaced in a single left-to-right scan. -/
def replaceAll (pat rep : List Char) (l : List Char) : List Char :=
  replaceAllGo pat rep l.length l

/-- Left trim, as in Python `str.strip` (leading part). -/
def ltrim (l : List Char) : List Char := l.dropWhile isSp

/-- Right trim, as in Python `str.strip` (trailing part). -/
def rtrim (l : List Char) : List Char := (l.reverse.dropWhile isSp).reverse

/-- Model of Python `str.strip()`. -/
def strip (l : List Char) : List Char := rtrim (ltrim l)

/-- Model of the Python substring test `needle in hay`: the needle is a
    prefix of some suffix of the hay. -/
def hasSubstr : List Char → List Char → Bool
  | [], needle => needle.isEmpty
  | c :: cs, needle => needle.isPrefixOf (c :: cs) || hasSubstr cs needle

/-- Model of the Python slice `l[a:b]` for natural indices `a ≤ b`
    (out-of-range bounds clamp, as in Python). -/
def sliceL (l : List Char) (a b : Nat) : List Char := (l.drop a).take (b - a)

/-- The five HTML-entity replacements of `clean_text`, in source order. -/
def entity_replaces (l : List Char) : List Char :=
  replaceAll ("&QUOT;".data) (("\"").data)
    (replaceAll ("&NBSP;".data) ((" ").data)
      (replaceAll ("&GT;".data) ((">").data)
        (replaceAll ("&LT;".data) (("<").data)
          (replaceAll ("&AMP;".data) (("&").data) l))))

/-- Model of `CouponDetector.clean_text`: uppercase, collapse whitespace,
    decode the five HTML entities, trim. -/
def clean_text (text : List Char) : List Char :=
  if text = [] then [] else strip (entity_replaces (collapse (upperL text)))

/-- The fixed promotional keyword vocabulary (`self.keywords`). -/
def keywords : List (List Char) :=
  (["coupon", "promo code", "promo", "discount", "% off", "percent off",
    "deal", "offer", "sale", "save", "code", "voucher", "rebate",
    "special offer", "limited time", "exclusive", "flash sale",
    "clearance", "markdown", "reduced", "bargain", "bonus",
    "free shipping", "buy one get one", "bogo", "half price",
    "price drop", "slashed", "cut price", "promotional code",
    "discount code", "savings code", "checkout code", "redeem",
    "apply code", "enter code", "use code"] : List String).map String.data

/-- Model of `CouponDetector.extract_keywords`: the vocabulary entries
    whose uppercase form occurs in the cleaned text, in vocabulary order. -/
def extract_keywords (text : List Char) : List (List Char) :=
  keywords.filter (fun k => hasSubstr (clean_text text) (upperL k))

/-- Unicode decimal digits (category `Nd`, Unicode 15.0 ranges): with the
    default (Unicode) flags, Python's `\d` matches every decimal digit of
    every script, not just ASCII `0-9`.  The ASCII range is tested first so
    that the common case stays cheap. -/
def isDigitNd (c : Char) : Bool :=
  let n := c.toNat
  if n < 0x660 then 0x30 ≤ n && n ≤ 0x39 else
  (0x660 ≤ n && n ≤ 0x669) || (0x6F0 ≤ n && n ≤ 0x6F9) ||
  (0x7C0 ≤ n && n ≤ 0x7C9) || (0x966 ≤ n && n ≤ 0x96F) ||
  (0x9E6 ≤ n && n ≤ 0x9EF) || (0xA66 ≤ n && n ≤ 0xA6F) ||
  (0xAE6 ≤ n && n ≤ 0xAEF) || (0xB66 ≤ n && n ≤ 0xB6F) ||
  (0xBE6 ≤ n && n ≤ 0xBEF) || (0xC66 ≤ n && n ≤ 0xC6F) ||
  (0xCE6 ≤ n && n ≤ 0xCEF) || (0xD66 ≤ n && n ≤ 0xD6F) ||
  (0xDE6 ≤ n && n ≤ 0xDEF) || (0xE50 ≤ n && n ≤ 0xE59) ||
  (0xED0 ≤ n && n ≤ 0xED9) || (0xF20 ≤ n && n ≤ 0xF29) ||
  (0x1040 ≤ n && n ≤ 0x1049) || (0x1090 ≤ n && n ≤ 0x1099) ||
  (0x17E0 ≤ n && n ≤ 0x17E9) || (0x1810 ≤ n && n ≤ 0x1819) ||
  (0x1946 ≤ n && n ≤ 0x194F) || (0x19D0 ≤ n && n ≤ 0x19D9) ||
  (0x1A80 ≤ n && n ≤ 0x1A89) || (0x1A90 ≤ n && n ≤ 0x1A99) ||
  (0x1B50 ≤ n && n ≤ 0x1B59) || (0x1BB0 ≤ n && n ≤ 0x1BB9) ||
  (0x1C40 ≤ n && n ≤ 0x1C49) || (0x1C50 ≤ n && n ≤ 0x1C59) ||
  (0xA620 ≤ n && n ≤ 0xA629) || (0xA8D0 ≤ n && n ≤ 0xA8D9) ||
  (0xA900 ≤ n && n ≤ 0xA909) || (0xA9D0 ≤ n && n ≤ 0xA9D9) ||
  (0xA9F0 ≤ n && n ≤ 0xA9F9) || (0xAA50 ≤ n && n ≤ 0xAA59) ||
  (0xABF0 ≤ n && n ≤ 0xABF9) || (0xFF10 ≤ n && n ≤ 0xFF19) ||
  (0x104A0 ≤ n && n ≤ 0x104A9) || (0x10D30 ≤ n && n ≤ 0x10D39) ||
  (0x11066 ≤ n && n ≤ 0x1106F) || (0x110F0 ≤ n && n ≤ 0x110F9) ||
  (0x11136 ≤ n && n ≤ 0x1113F) || (0x111D0 ≤ n && n ≤ 0x111D9) ||
  (0x112F0 ≤ n && n ≤ 0x112F9) || (0x11450 ≤ n && n ≤ 0x11459) ||
  (0x114D0 ≤ n && n ≤ 0x114D9) || (0x11650 ≤ n && n ≤ 0x11659) ||
  (0x116C0 ≤ n && n ≤ 0x116C9) || (0x11730 ≤ n && n ≤ 0x11739) ||
  (0x118E0 ≤ n && n ≤ 0x118E9) || (0x11950 ≤ n && n ≤ 0x11959) ||
  (0x11C50 ≤ n && n ≤ 0x11C59) || (0x11D50 ≤ n && n ≤ 0x11D59) ||
  (0x11DA0 ≤ n && n ≤ 0x11DA9) || (0x11F50 ≤ n && n ≤ 0x11F59) ||
  (0x16A60 ≤ n && n ≤ 0x16A69) || (0x16AC0 ≤ n && n ≤ 0x16AC9) ||
  (0x16B50 ≤ n && n ≤ 0x16B59) || (0x1D7CE ≤ n && n ≤ 0x1D7FF) ||
  (0x1E140 ≤ n && n ≤ 0x1E149) || (0x1E2F0 ≤ n && n ≤ 0x1E2F9) ||
  (0x1E4F0 ≤ n && n ≤ 0x1E4F9) || (0x1E950 ≤ n && n ≤ 0x1E959) ||
  (0x1FBF0 ≤ n && n ≤ 0x1FBF9)

/-- Character classes occurring in the compiled coupon patterns.  All the
    patterns are compiled with `re.IGNORECASE`, so the letter classes also
    accept lowercase letters (via `Char.toUpper`). -/
inductive CC where
  | azd
  | az
  | digit
  | lchar (c : Char)
  | punct
  | colonSp
  | openQ
  | closeQ
  | anyNoNL
deriving DecidableEq

/-- Which characters each class accepts: `azd` is `[A-Z0-9]` (ignorecase;
    the literal `0-9` range is ASCII), `az` is `[A-Z]` (ignorecase),
    `digit` is `\d` (any Unicode decimal digit), `lchar c` is the literal
    character `c` (ignorecase), `punct` is `[\s\.,!]`, `colonSp` is `[:\s]`,
    `openQ`/`closeQ` are the quote/bracket classes of the quoted-code
    pattern, and `anyNoNL` is `.` (anything but a newline). -/
def CC.mat : CC → Char → Bool
  | .azd, c => (('A' ≤ c.toUpper) && (c.toUpper ≤ 'Z')) || c.isDigit
  | .az, c => ('A' ≤ c.toUpper) && (c.toUpper ≤ 'Z')
  | .digit, c => isDigitNd c
  | .lchar d, c => c.toUpper == d.toUpper
  | .punct, c => isSp c || c == '.' || c == ',' || c == '!'
  | .colonSp, c => c == ':' || isSp c
  | .openQ, c => c == '"' || c == Char.ofNat 39 || c == '[' || c == '(' || c == Char.ofNat 123
  | .closeQ, c => c == '"' || c == Char.ofNat 39 || c == ']' || c == ')' || c == Char.ofNat 125
  | .anyNoNL, c => !(c == '\n')

/-- Regular-expression AST covering exactly the constructs used by the
    fifteen coupon patterns: character classes, concatenation, ordered
    alternation, greedy bounded repetition `{m,n}`, greedy star over a
    class, word boundary `\b`, one capturing group, lookahead `(?=...)`
    and the `$` anchor. -/
inductive RE where
  | eps
  | cls (a : CC)
  | seq (r1 r2 : RE)
  | alt (r1 r2 : RE)
  | rep (m n : Nat) (r : RE)
  | starCls (a : CC)
  | bnd
  | grp (r : RE)
  | look (r : RE)
  | eos
deriving DecidableEq

/-- Word character for `\b` (Python `\w`): ASCII alphanumerics,
    underscore, and Unicode decimal digits.  Non-ASCII letters are outside
    the modelled alphabet (no theorem below depends on them). -/
def isWordC (c : Char) : Bool := c.isAlphanum || c == '_' || isDigitNd c

/-- Character of `t` at index `i` (a space when out of range; every use is
    guarded by a bounds check). -/
def getC (t : List Char) (i : Nat) : Char := t.getD i ' '

/-- Python `\b`: the two sides of position `i` disagree on wordness. -/
def boundaryAt (t : List Char) (i : Nat) : Bool :=
  (if i = 0 then false else isWordC (getC t (i - 1))) !=
    (if i < t.length then isWordC (getC t i) else false)

/-- A capture-group span (start, end). -/
abbrev Span := Nat × Nat

/-- Result of a successful match continuation: end position and the span
    of the capturing group, if one participated. -/
abbrev MRes := Nat × Option Span

/-- Greedy `{m,n}` repetition in continuation-passing style: `one` matches
    a single copy of the body; more copies are preferred, as in Python. -/
def repGo (one : Nat → Option Span → (Nat → Option Span → Option MRes) → Option MRes) :
    Nat → Nat → Nat → Option Span → (Nat → Option Span → Option MRes) → Option MRes
  | 0, 0, i, cap, k => k i cap
  | _ + 1, 0, _, _, _ => none
  | 0, n + 1, i, cap, k =>
    match one i cap (fun j cap2 => repGo one 0 n j cap2 k) with
    | some r => some r
    | none => k i cap
  | m + 1, n + 1, i, cap, k => one i cap (fun j cap2 => repGo one m n j cap2 k)

/-- Greedy star over a character class: try the continuation after the
    longest run first, then backtrack one character at a time. -/
def starGo (i : Nat) (cap : Option Span) (k : Nat → Option Span → Option MRes) :
    Nat → Option MRes
  | 0 => k i cap
  | d + 1 =>
    match k (i + d + 1) cap with
    | some r => some r
    | none => starGo i cap k d

/-- Length of the maximal run of class-`a` characters starting at `i`. -/
def runLen (a : CC) (t : List Char) (i : Nat) : Nat :=
  ((t.drop i).takeWhile (CC.mat a)).length

/-- Backtracking matcher in continuation-passing style, following Python
    `re` semantics: alternatives are tried left to right, repetition is
    greedy, the first overall success wins.  `cap` carries the span of the
    capturing group once it has matched. -/
def mrun (t : List Char) : RE → Nat → Option Span → (Nat → Option Span → Option MRes) → Option MRes
  | .eps, i, cap, k => k i cap
  | .cls a, i, cap, k =>
    if i < t.length && CC.mat a (getC t i) then k (i + 1) cap else none
  | .seq r1 r2, i, cap, k => mrun t r1 i cap (fun j cap2 => mrun t r2 j cap2 k)
  | .alt r1 r2, i, cap, k =>
    match mrun t r1 i cap k with
    | some r => some r
    | none => mrun t r2 i cap k
  | .rep m n r, i, cap, k => repGo (mrun t r) m n i cap k
  | .starCls a, i, cap, k => starGo i cap k (runLen a t i)
  | .bnd, i, cap, k => if boundaryAt t i then k i cap else none
  | .grp r, i, cap, k => mrun t r i cap (fun j _ => k j (some (i, j)))
  | .look r, i, cap, k =>
    match mrun t r i cap (fun j cap2 => some (j, cap2)) with
    | some _ => k i cap
    | none => none
  | .eos, i, cap, k =>
    if i = t.length || (i + 1 = t.length && getC t i == '\n') then k i cap else none

/-- Try to match `r` at position `i` of `t` (Python's anchored attempt at
    one scan position). -/
def matchAt (t : List Char) (r : RE) (i : Nat) : Option MRes :=
  mrun t r i none (fun j cap => some (j, cap))

/-- Scanning loop of `re.finditer`: non-overlapping matches, scanning left
    to right, advancing past each match (or by one position on failure or
    on an empty match).  The fuel is exact: every step advances by at
    least one position and scanning stops past `t.length`. -/
def finditerGo (t : List Char) (r : RE) : Nat → Nat → List (Nat × Nat × Option Span)
  | _, 0 => []
  | i, fuel + 1 =>
    if i ≤ t.length then
      match matchAt t r i with
      | some (j, cap) => (i, j, cap) :: finditerGo t r (if i < j then j else i + 1) fuel
      | none => finditerGo t r (i + 1) fuel
    else []

/-- Model of `re.finditer(pattern, t)` returning (start, end, group span). -/
def finditer (t : List Char) (r : RE) : List (Nat × Nat × Option Span) :=
  finditerGo t r 0 (t.length + 1)

/-- Literal word (each character case-insensitively, as `re.IGNORECASE`). -/
def litW (s : List Char) : RE :=
  s.foldr (fun c r => RE.seq (RE.cls (CC.lchar c)) r) RE.eps

/-- Ordered alternation of a list of branches (leftmost preferred).  The
    empty list gives an unmatchable class; it never occurs below. -/
def altL : List RE → RE
  | [] => RE.cls (CC.lchar (Char.ofNat 0))
  | [r] => r
  | r :: rs => RE.alt r (altL rs)

/-- Ordered alternation of literal words, e.g. `(?:SAVE|GET|...)`. -/
def altW (ws : List String) : RE := altL (ws.map (fun w => litW w.data))

/-- `{m,n}` repetition of a single character class. -/
def reps (m n : Nat) (a : CC) : RE := RE.rep m n (RE.cls a)

/-- `(?=[\s\.,!]|$)` — the punctuation/end lookahead. -/
def punctLook : RE := RE.look (RE.alt (RE.cls CC.punct) RE.eos)

/-- Pattern 1: `\b[A-Z0-9]{5,15}\b(?=[\s\.,!]|$)`. -/
def pat01 : RE := .seq .bnd (.seq (reps 5 15 .azd) (.seq .bnd punctLook))

/-- The promotional prefixes `(?:SAVE|GET|PROMO|DEAL|OFFER|CODE|DISCOUNT|SALE)`. -/
def promoPre : RE :=
  altW ["SAVE", "GET", "PROMO", "DEAL", "OFFER", "CODE", "DISCOUNT", "SALE"]

/-- Pattern 2: `\b(?:SAVE|GET|PROMO|DEAL|OFFER|CODE|DISCOUNT|SALE)\d{2,8}\b`. -/
def pat02 : RE := .seq .bnd (.seq promoPre (.seq (reps 2 8 .digit) .bnd))

/-- Pattern 3: `\b(?:SAVE|GET|PROMO|DEAL|OFFER|CODE|DISCOUNT|SALE)[A-Z0-9]{2,8}\b`. -/
def pat03 : RE := .seq .bnd (.seq promoPre (.seq (reps 2 8 .azd) .bnd))

/-- Pattern 4: `\b[A-Z0-9]*(?:10|15|20|25|30|40|50|60|70|75|80|90)(?:OFF|PERCENT|PCT)[A-Z0-9]*\b`. -/
def pat04 : RE :=
  .seq .bnd (.seq (.starCls .azd)
    (.seq (altW ["10", "15", "20", "25", "30", "40", "50", "60", "70", "75", "80", "90"])
      (.seq (altW ["OFF", "PERCENT", "PCT"]) (.seq (.starCls .azd) .bnd))))

/-- The seasonal words `(?:SUMMER|WINTER|SPRING|FALL|HOLIDAY|XMAS|BLACK|CYBER|FRIDAY|MONDAY)`. -/
def seasonW : RE :=
  altW ["SUMMER", "WINTER", "SPRING", "FALL", "HOLIDAY", "XMAS", "BLACK", "CYBER",
        "FRIDAY", "MONDAY"]

/-- Pattern 5: seasonal prefix followed by `[A-Z0-9]{2,8}\b`. -/
def pat05 : RE := .seq .bnd (.seq seasonW (.seq (reps 2 8 .azd) .bnd))

/-- Pattern 6: `[A-Z0-9]{2,8}` followed by a seasonal suffix. -/
def pat06 : RE := .seq .bnd (.seq (reps 2 8 .azd) (.seq seasonW .bnd))

/-- The shipping words `(?:FREE|SHIP|SHIPPING)`. -/
def shipW : RE := altW ["FREE", "SHIP", "SHIPPING"]

/-- Pattern 7: `\b(?:FREE|SHIP|SHIPPING)[A-Z0-9]{2,8}\b`. -/
def pat07 : RE := .seq .bnd (.seq shipW (.seq (reps 2 8 .azd) .bnd))

/-- Pattern 8: `\b[A-Z0-9]{2,8}(?:FREE|SHIP|SHIPPING)\b`. -/
def pat08 : RE := .seq .bnd (.seq (reps 2 8 .azd) (.seq shipW .bnd))

/-- The welcome words `(?:WELCOME|NEW|FIRST|HELLO)`. -/
def welcomeW : RE := altW ["WELCOME", "NEW", "FIRST", "HELLO"]

/-- Pattern 9: `\b(?:WELCOME|NEW|FIRST|HELLO)[A-Z0-9]{2,8}\b`. -/
def pat09 : RE := .seq .bnd (.seq welcomeW (.seq (reps 2 8 .azd) .bnd))

/-- Pattern 10: `\b[A-Z0-9]{2,8}(?:WELCOME|NEW|FIRST|HELLO)\b`. -/
def pat10 : RE := .seq .bnd (.seq (reps 2 8 .azd) (.seq welcomeW .bnd))

/-- Pattern 11: `\b[A-Z]{2,4}\d{4,8}\b` (brand initials + numbers). -/
def pat11 : RE := .seq .bnd (.seq (reps 2 4 .az) (.seq (reps 4 8 .digit) .bnd))

/-- Pattern 12: `\b\d{4,8}[A-Z]{2,4}\b` (numbers + brand initials). -/
def pat12 : RE := .seq .bnd (.seq (reps 4 8 .digit) (.seq (reps 2 4 .az) .bnd))

/-- Pattern 13: `(?:code[:\s]*)?([A-Z0-9]{4,12})(?=[\s\.,!]|$)` — the
    labelled-capture pattern (the only group-bearing pattern besides 14). -/
def pat13 : RE :=
  .seq (.alt (.seq (litW ("code".data)) (.starCls .colonSp)) .eps)
    (.seq (.grp (reps 4 12 .azd)) punctLook)

/-- Pattern 14: `["'\[({]([A-Z0-9]{4,12})["'\])}]` — quoted or bracketed codes. -/
def pat14 : RE := .seq (.cls .openQ) (.seq (.grp (reps 4 12 .azd)) (.cls .closeQ))

/-- Pattern 15: `\b[A-Z]{4,12}\b(?=.*(?:checkout|cart|order|purchase|buy))`. -/
def pat15 : RE :=
  .seq .bnd (.seq (reps 4 12 .az)
    (.seq .bnd (.look (.seq (.starCls .anyNoNL)
      (altW ["CHECKOUT", "CART", "ORDER", "PURCHASE", "BUY"])))))

/-- The compiled pattern table `self.compiled_patterns`, in source order. -/
def coupon_patterns : List RE :=
  [pat01, pat02, pat03, pat04, pat05, pat06, pat07, pat08, pat09, pat10,
   pat11, pat12, pat13, pat14, pat15]

/-- Whether a pattern defines a capturing group (`match.groups()` non-empty). -/
def hasGrp : RE → Bool
  | .eps | .bnd | .eos | .cls _ | .starCls _ => false
  | .seq a b | .alt a b => hasGrp a || hasGrp b
  | .rep _ _ r => hasGrp r
  | .grp _ => true
  | .look r => hasGrp r

/-- The false-positive lexicon `self.false_positives`. -/
def false_positives : List (List Char) :=
  (["UNSUBSCRIBE", "SUBSCRIBE", "EMAIL", "GMAIL", "YAHOO", "HOTMAIL",
    "AMAZON", "GOOGLE", "FACEBOOK", "TWITTER", "INSTAGRAM", "LINKEDIN",
    "MONDAY", "TUESDAY", "WEDNESDAY", "THURSDAY", "FRIDAY", "SATURDAY", "SUNDAY",
    "JANUARY", "FEBRUARY", "MARCH", "APRIL", "JUNE", "JULY", "AUGUST",
    "SEPTEMBER", "OCTOBER", "NOVEMBER", "DECEMBER", "HTTPS", "HTTP",
    "CLICK", "HERE", "LINK", "BUTTON", "IMAGE", "VIDEO", "PHONE",
    "ADDRESS", "CONTACT", "SUPPORT", "HELP", "FAQ", "TERMS", "PRIVACY"] :
      List String).map String.data

/-- Literal uppercase alphanumeric character (no ignorecase here: the
    check `re.match(r'^[A-Z0-9]+$', code)` is compiled without flags). -/
def charOK (c : Char) : Bool := (('A' ≤ c) && (c ≤ 'Z')) || c.isDigit

/-- Model of `re.match(r'^[A-Z0-9]+$', code)` being truthy.  With default
    flags `$` also matches just before one trailing newline. -/
def matchCapsAlnum (code : List Char) : Bool :=
  let core := if code.getLast? == some '\n' then code.dropLast else code
  !core.isEmpty && core.all charOK

/-- Model of `re.search(r'\d{2}(?:OFF|PERCENT)', code)` being truthy
    (`\d` is again any Unicode decimal digit). -/
def hasPct : List Char → Bool
  | c1 :: c2 :: rest =>
    (isDigitNd c1 && isDigitNd c2 &&
      ((("OFF".data).isPrefixOf rest) || (("PERCENT".data).isPrefixOf rest))) ||
      hasPct (c2 :: rest)
  | _ => false

/-- The context phrases of `calculate_confidence`. -/
def context_keywords : List (List Char) :=
  (["use code", "enter code", "promo code", "discount code", "checkout"] :
      List String).map String.data

/-- Python's two-argument `min`. -/
def minN (a b : Nat) : Nat := if a ≤ b then a else b

/-- Model of `CouponDetector.calculate_confidence`.  Every contribution in
    the source is an exact multiple of 0.01, so confidences are modelled
    exactly, scaled by 100 into naturals (0.5 is 50, the cap 1.0 is 100);
    `confQ` recovers the real value.  The score is base 0.5, plus the
    keyword bonus capped at 0.3, the all-caps-alphanumeric bonus, the
    SAVE/GET/OFF/FREE/PROMO substring bonus, the percentage bonus, 0.1 per
    context phrase present in the cleaned text, a length bonus, clamped
    to at most 1. -/
def calculate_confidence (code original_text cleanT : List Char) : Nat :=
  let kws := extract_keywords original_text
  let c1 : Nat := 50 + minN (kws.length * 10) 30
  let c2 := c1 + (if matchCapsAlnum code then 10 else 0)
  let c3 := c2 +
    (if (["SAVE", "GET", "OFF", "FREE", "PROMO"] : List String).any
        (fun w => hasSubstr code w.data) then 15 else 0)
  let c4 := c3 + (if hasPct code then 20 else 0)
  let c5 := c4 +
    (context_keywords.filter (fun k => hasSubstr cleanT (upperL k))).length * 10
  let c6 := c5 +
    (if 6 ≤ code.length && code.length ≤ 10 then 10
     else if 4 ≤ code.length && code.length ≤ 12 then 5 else 0)
  minN c6 100

/-- The real confidence value modelled by a scaled-by-100 natural. -/
def confQ (n : Nat) : ℚ := (n : ℚ) / 100

/-- Python `str.isdigit` (non-empty and all digits). -/
def isDigitAll (l : List Char) : Bool := !l.isEmpty && l.all Char.isDigit

/-- Python `str.isalpha` (non-empty and all letters). -/
def isAlphaAll (l : List Char) : Bool := !l.isEmpty && l.all Char.isAlpha

/-- The match text: `match.group(1)` when the pattern has groups, else
    `match.group(0)` (a slice of the cleaned text). -/
def matchCode (ct : List Char) (r : RE) (s e : Nat) (cap : Option Span) : List Char :=
  if hasGrp r then
    match cap with
    | some (a, b) => sliceL ct a b
    | none => []
  else sliceL ct s e

/-- One iteration of the match loop in `extract_coupon_codes`: the three
    `continue` filters, then the confidence score and the ±20-character
    context window. -/
def candFromMatch (text ct : List Char) (r : RE) (m : Nat × Nat × Option Span) :
    Option (List Char × Nat × List Char) :=
  let code := matchCode ct r m.1 m.2.1 m.2.2
  if code ∈ false_positives then none
  else if code.length < 4 ∨ 15 < code.length then none
  else if (isDigitAll code = true ∨ isAlphaAll code = true) ∧ code.length < 6 then none
  else
    some (code, calculate_confidence code text ct,
      strip (sliceL ct (m.1 - 20) (min ct.length (m.2.1 + 20))))

/-- All surviving candidates of one field, pattern by pattern in table
    order, matches in scan order (the `codes` list before deduplication). -/
def scan_candidates (text : List Char) : List (List Char × Nat × List Char) :=
  let ct := clean_text text
  coupon_patterns.flatMap (fun r => (finditer ct r).filterMap (candFromMatch text ct r))

/-- One step of the `unique_codes` dict loop: insert a new code at the
    end, or replace the stored entry in place when strictly better. -/
def dedupStep (acc : List (List Char × Nat × List Char)) (x : List Char × Nat × List Char) :
    List (List Char × Nat × List Char) :=
  if acc.any (fun y => y.1 == x.1) then
    acc.map (fun y => if y.1 = x.1 ∧ y.2.1 < x.2.1 then x else y)
  else acc ++ [x]

/-- The `unique_codes` insertion-ordered dict of `extract_coupon_codes`. -/
def dedup_codes (l : List (List Char × Nat × List Char)) : List (List Char × Nat × List Char) :=
  l.foldl dedupStep []

/-- Model of `CouponDetector.extract_coupon_codes`. -/
def extract_coupon_codes (text : List Char) : List (List Char × Nat × List Char) :=
  dedup_codes (scan_candidates text)

/-- The `CouponCode` dataclass.  `detected_at` (`datetime.now()`) is
    modelled by a caller-supplied timestamp. -/
structure CouponCode where
  code : List Char
  confidence : Nat
  context : List Char
  email_subject : List Char
  source : List Char
  detected_at : Nat
  keywords_found : List (List Char)
deriving DecidableEq

/-- Stable descending insertion: `x` goes before the first element whose
    confidence is not greater.  Elements already in the list come from
    later discovery positions, so ties keep discovery order (as Python's
    stable `list.sort(key=..., reverse=True)`). -/
def insertDesc (x : CouponCode) : List CouponCode → List CouponCode
  | [] => [x]
  | y :: ys =>
    if x.confidence < y.confidence then y :: insertDesc x ys else x :: y :: ys

/-- Stable sort by descending confidence, modelling
    `coupon_codes.sort(key=lambda x: x.confidence, reverse=True)`. -/
def sortDesc : List CouponCode → List CouponCode
  | [] => []
  | x :: xs => insertDesc x (sortDesc xs)

/-- Wrapping of the per-field tuples into `CouponCode` records (the
    construction loop of `detect_coupons_in_email`). -/
def build_coupons (subject sender : List Char) (now : Nat) (kws : List (List Char))
    (tuples : List (List Char × Nat × List Char)) : List CouponCode :=
  tuples.map (fun m =>
    { code := m.1, confidence := m.2.1, context := m.2.2,
      email_subject := subject,
      source := if sender = [] then ("Unknown".data) else sender,
      detected_at := now, keywords_found := kws })

/-- Model of `CouponDetector.detect_coupons_in_email`. -/
def detect_coupons_in_email (subject body sender : List Char) (now : Nat) :
    List CouponCode :=
  let all_text := subject ++ ' ' :: body
  let kws := extract_keywords all_text
  if kws = [] then []
  else
    sortDesc (build_coupons subject sender now kws
      (extract_coupon_codes subject ++ extract_coupon_codes body))

/-- Model of `CouponDetector.is_promotional_email`. -/
def is_promotional_email (subject body : List Char) : Bool :=
  decide (0 < (extract_keywords (subject ++ ' ' :: body)).length)

/-- Values occurring in the statistics dict. -/
inductive StatVal where
  | nat (v : Nat)
  | num (v : ℚ)
  | kwList (v : List (List Char))
  | codeList (v : List (List Char × Nat))
deriving DecidableEq

/-- Round to the nearest integer, ties to even (Python `round`). -/
def roundHalfEven (x : ℚ) : ℤ :=
  let n := ⌊x⌋
  if x - n < 1/2 then n
  else if 1/2 < x - n then n + 1
  else if n % 2 = 0 then n else n + 1

/-- Python `round(x, 2)` modelled on the rationals. -/
def round2 (x : ℚ) : ℚ := (roundHalfEven (x * 100) : ℚ) / 100

/-- Model of `list(set(all_keywords))`: each keyword once (CPython set
    order is unspecified; first-occurrence order is one concrete choice). -/
def uniqueList (l : List (List Char)) : List (List Char) :=
  l.foldl (fun acc k => if k ∈ acc then acc else acc ++ [k]) []

/-- Model of `CouponDetector.get_detection_stats`; the returned Python
    dict is modelled as an insertion-ordered key/value list.  Note that in
    the empty branch the source builds a dict with only three keys. -/
def get_detection_stats (l : List CouponCode) : List (List Char × StatVal) :=
  if l = [] then
    [("total_codes".data, StatVal.nat 0), ("avg_confidence".data, StatVal.num 0),
     ("keywords_found".data, StatVal.kwList [])]
  else
    [("total_codes".data, StatVal.nat l.length),
     ("avg_confidence".data,
       StatVal.num (round2 (((l.map CouponCode.confidence).sum : ℚ) / 100 / (l.length : ℚ)))),
     ("keywords_found".data,
       StatVal.kwList (uniqueList (l.flatMap CouponCode.keywords_found))),
     ("codes_by_confidence".data,
       StatVal.codeList (l.map (fun c => (c.code, c.confidence))))]

/-- The five entity strings decoded by `clean_text`, in source order. -/
def entity_pats : List (List Char) :=
  (["&AMP;", "&LT;", "&GT;", "&NBSP;", "&QUOT;"] : List String).map String.data

/-- Characters of a list are fixed points of `Char.toUpper` (true of every
    character of a cleaned text). -/
def allUpper (l : List Char) : Prop := ∀ c ∈ l, c.toUpper = c

/-- Whitespace characters of a list are all plain spaces. -/
def wsSp (l : List Char) : Prop := ∀ c ∈ l, isSp c = true → c = ' '

/-! Character-level facts. -/

theorem toNat_ofNat_valid {n : Nat} (h : n.isValidChar) : (Char.ofNat n).toNat = n := by
  rw [Char.ofNat, dif_pos h]
  rfl

theorem toUpper_idem (c : Char) : c.toUpper.toUpper = c.toUpper := by
  unfold Char.toUpper
  by_cases h : c.toNat ≥ 97 ∧ c.toNat ≤ 122
  · rw [if_pos h]
    have hv : Nat.isValidChar (c.toNat - 32) := Or.inl (by omega)
    rw [toNat_ofNat_valid hv, if_neg (by omega)]
  · rw [if_neg h, if_neg h]

/-! Substring and prefix facts. -/

theorem isPrefixOf_append_right {n a : List Char} (b : List Char)
    (h : n.isPrefixOf a = true) : n.isPrefixOf (a ++ b) = true := by
  induction n generalizing a with
  | nil => rw [List.isPrefixOf_nil_left]
  | cons x xs ih =>
    cases a with
    | nil => rw [List.isPrefixOf_cons_nil] at h; cases h
    | cons y ys =>
      rw [List.isPrefixOf_cons₂] at h
      rw [List.cons_append, List.isPrefixOf_cons₂]
      rcases Bool.and_eq_true_iff.mp h with ⟨h1, h2⟩
      rw [h1, ih h2]
      rfl

theorem hasSubstr_append_right {a n : List Char} (b : List Char)
    (h : hasSubstr a n = true) : hasSubstr (a ++ b) n = true := by
  induction a with
  | nil =>
    rw [hasSubstr] at h
    have hn : n = [] := by
      cases n with
      | nil => rfl
      | cons x xs => simp [List.isEmpty] at h
    subst hn
    cases b with
    | nil => rfl
    | cons y ys =>
      rw [List.nil_append, hasSubstr, List.isPrefixOf_nil_left, Bool.true_or]
  | cons c cs ih =>
    rw [hasSubstr] at h
    rw [List.cons_append, hasSubstr]
    rcases Bool.or_eq_true_iff.mp h with h1 | h2
    · rw [← List.cons_append, isPrefixOf_append_right b h1, Bool.true_or]
    · rw [ih h2, Bool.or_true]

/-! Collapse (whitespace normalization) facts. -/

theorem collapseGo_cons (s : Bool) (d : Char) (cs : List Char) :
    collapseGo s (d :: cs) =
      if isSp d then (if s then collapseGo true cs else ' ' :: collapseGo true cs)
      else d :: collapseGo false cs := by
  cases s <;> rfl

theorem collapseGo_append (a : List Char) (c : Char) (hc : isSp c = false) :
    ∀ (s : Bool) (b : List Char),
      collapseGo s (a ++ c :: b) = collapseGo s (a ++ [c]) ++ collapseGo false b := by
  induction a with
  | nil =>
    intro s b
    rw [List.nil_append, List.nil_append, collapseGo_cons, collapseGo_cons,
      if_neg (by rw [hc]; simp), if_neg (by rw [hc]; simp)]
    simp [collapseGo]
  | cons d a ih =>
    intro s b
    rw [List.cons_append, List.cons_append, collapseGo_cons, collapseGo_cons]
    by_cases hd : isSp d = true
    · rw [if_pos hd, if_pos hd]
      cases s
      · simp only [Bool.false_eq_true, if_false]
        rw [ih true b, List.cons_append]
      · simp only [if_true]
        rw [ih true b]
    · rw [if_neg hd, if_neg hd]
      rw [ih false b, List.cons_append]

theorem collapseGo_state_of_head (c : Char) (l : List Char) (hc : isSp c = false) :
    collapseGo true (c :: l) = collapseGo false (c :: l) := by
  simp [collapseGo, hc]

theorem mem_collapseGo {P : Char → Prop} (hP : P ' ') :
    ∀ (s : Bool) (l : List Char), (∀ c ∈ l, P c) → ∀ c ∈ collapseGo s l, P c := by
  intro s l
  induction l generalizing s with
  | nil => intro _ c hc; simp [collapseGo] at hc
  | cons d t ih =>
    intro hl c hc
    by_cases hd : isSp d = true
    · rcases s with _ | _
      · simp only [collapseGo, hd, if_true, Bool.false_eq_true, if_false] at hc
        rcases List.mem_cons.mp hc with h | h
        · exact h ▸ hP
        · exact ih true (fun x hx => hl x (List.mem_cons_of_mem d hx)) c h
      · simp only [collapseGo, hd, if_true] at hc
        exact ih true (fun x hx => hl x (List.mem_cons_of_mem d hx)) c hc
    · simp only [Bool.not_eq_true] at hd
      simp only [collapseGo, hd, Bool.false_eq_true, if_false] at hc
      rcases List.mem_cons.mp hc with h | h
      · exact h ▸ hl d (List.mem_cons_self d t)
      · exact ih false (fun x hx => hl x (List.mem_cons_of_mem d hx)) c h

theorem wsSp_collapseGo : ∀ (s : Bool) (l : List Char), wsSp (collapseGo s l) := by
  intro s l
  induction l generalizing s with
  | nil => intro c hc; simp [collapseGo] at hc
  | cons d t ih =>
    intro c hc hsp
    by_cases hd : isSp d = true
    · rcases s with _ | _
      · simp only [collapseGo, hd, if_true, Bool.false_eq_true, if_false] at hc
        rcases List.mem_cons.mp hc with h | h
        · exact h
        · exact ih true c h hsp
      · simp only [collapseGo, hd, if_true] at hc
        exact ih true c hc hsp
    · simp only [Bool.not_eq_true] at hd
      simp only [collapseGo, hd, Bool.false_eq_true, if_false] at hc
      rcases List.mem_cons.mp hc with h | h
      · subst h; rw [hd] at hsp; cases hsp
      · exact ih false c h hsp

theorem collapseGo_eq_self : ∀ (l : List Char), wsSp l →
    hasSubstr l [' ', ' '] = false → collapseGo false l = l := by
  intro l
  induction l with
  | nil => intro _ _; rfl
  | cons c cs ih =>
    intro hws hss
    rw [hasSubstr, Bool.or_eq_false_iff] at hss
    by_cases hc : isSp c = true
    · have hcsp : c = ' ' := hws c (List.mem_cons_self c cs) hc
      subst hcsp
      simp only [collapseGo, if_pos hc]
      cases cs with
      | nil => rfl
      | cons c2 rest =>
        have hc2 : isSp c2 = false := by
          by_contra hc2
          simp only [Bool.not_eq_false] at hc2
          have : c2 = ' ' := hws c2 (List.mem_cons_of_mem _ (List.mem_cons_self c2 rest)) hc2
          subst this
          have := hss.1
          rw [List.isPrefixOf_cons₂] at this
          rw [List.isPrefixOf_cons₂] at this
          simp at this
        rw [collapseGo_state_of_head c2 rest hc2]
        rw [ih (fun x hx h => hws x (List.mem_cons_of_mem _ hx) h) hss.2]
        rfl
    · simp only [Bool.not_eq_true] at hc
      simp only [collapseGo, hc, Bool.false_eq_true, if_false]
      rw [ih (fun x hx h => hws x (List.mem_cons_of_mem _ hx) h) hss.2]

/-! Replacement (HTML-entity decoding) facts. -/

theorem replaceAllGo_append_left (pat rep : List Char) (hd : Char)
    (hhd : pat.head? = some hd) :
    ∀ (x y : List Char) (fuel : Nat), hd ∉ x →
      replaceAllGo pat rep (x.length + fuel) (x ++ y) = x ++ replaceAllGo pat rep fuel y := by
  intro x
  induction x with
  | nil => intro y fuel _; simp
  | cons c cs ih =>
    intro y fuel hx
    have hne : pat.isPrefixOf (c :: (cs ++ y)) = false := by
      cases pat with
      | nil => simp at hhd
      | cons p ps =>
        simp only [List.head?] at hhd
        have hp : p = hd := by injection hhd
        subst hp
        rw [List.isPrefixOf_cons₂]
        have : ¬(p == c) = true := by
          intro hb
          exact hx (beq_iff_eq.mp hb ▸ List.mem_cons_self c cs)
        simp [this]
    have hlen : (c :: cs).length + fuel = (cs.length + fuel) + 1 := by
      simp [List.length_cons]; omega
    rw [hlen]
    show replaceAllGo pat rep ((cs.length + fuel) + 1) (c :: (cs ++ y)) = _
    rw [replaceAllGo, if_neg (by rw [hne]; simp)]
    rw [ih y fuel (fun h => hx (List.mem_cons_of_mem c h))]
    rfl

theorem replaceAll_append_left (pat rep : List Char) (hd : Char)
    (hhd : pat.head? = some hd) (x y : List Char) (hx : hd ∉ x) :
    replaceAll pat rep (x ++ y) = x ++ replaceAll pat rep y := by
  unfold replaceAll
  rw [List.length_append]
  exact replaceAllGo_append_left pat rep hd hhd x y y.length hx

theorem replaceAll_of_not_sub (pat rep : List Char) :
    ∀ l, hasSubstr l pat = false → replaceAll pat rep l = l := by
  intro l
  induction l with
  | nil => intro _; rfl
  | cons c cs ih =>
    intro h
    rw [hasSubstr, Bool.or_eq_false_iff] at h
    unfold replaceAll
    show replaceAllGo pat rep (cs.length + 1) (c :: cs) = c :: cs
    rw [replaceAllGo, if_neg (by rw [h.1]; simp)]
    have := ih h.2
    unfold replaceAll at this
    rw [this]

theorem mem_replaceAllGo {P : Char → Prop} {pat rep : List Char}
    (hrep : ∀ c ∈ rep, P c) :
    ∀ (fuel : Nat) (l : List Char), (∀ c ∈ l, P c) → ∀ c ∈ replaceAllGo pat rep fuel l, P c := by
  intro fuel
  induction fuel with
  | zero =>
    intro l hl c hc
    cases l with
    | nil => simp [replaceAllGo] at hc
    | cons d t => exact hl c hc
  | succ fuel ih =>
    intro l hl c hc
    cases l with
    | nil => simp [replaceAllGo] at hc
    | cons d t =>
      rw [replaceAllGo] at hc
      by_cases hp : 0 < pat.length ∧ pat.isPrefixOf (d :: t)
      · rw [if_pos hp] at hc
        rcases List.mem_append.mp hc with h | h
        · exact hrep c h
        · exact ih _ (fun x hx => hl x (List.drop_subset _ _ hx)) c h
      · rw [if_neg hp] at hc
        rcases List.mem_cons.mp hc with h | h
        · exact h ▸ hl d (List.mem_cons_self d t)
        · exact ih t (fun x hx => hl x (List.mem_cons_of_mem d hx)) c h

/-! Trim facts. -/

theorem dropWhile_idem (p : Char → Bool) :
    ∀ l : List Char, (l.dropWhile p).dropWhile p = l.dropWhile p := by
  intro l
  induction l with
  | nil => rfl
  | cons c cs ih =>
    rw [List.dropWhile_cons]
    by_cases hc : p c = true
    · rw [if_pos hc]; exact ih
    · rw [if_neg hc, List.dropWhile_cons, if_neg hc]

theorem length_dropWhile_le (p : Char → Bool) :
    ∀ l : List Char, (l.dropWhile p).length ≤ l.length := by
  intro l
  induction l with
  | nil => exact Nat.le_refl 0
  | cons c cs ih =>
    rw [List.dropWhile_cons]
    by_cases hc : p c = true
    · rw [if_pos hc]; exact Nat.le_succ_of_le ih
    · rw [if_neg hc]

theorem ltrim_of_head (c : Char) (l : List Char) (hc : isSp c = false) :
    ltrim (c :: l) = c :: l := by
  rw [ltrim, List.dropWhile_cons, if_neg (by rw [hc]; simp)]

theorem ltrim_idem (l : List Char) : ltrim (ltrim l) = ltrim l := dropWhile_idem isSp l

theorem rtrim_idem (l : List Char) : rtrim (rtrim l) = rtrim l := by
  unfold rtrim
  rw [List.reverse_reverse, dropWhile_idem]

theorem rtrim_prefix (l : List Char) : ∃ z, l = rtrim l ++ z := by
  refine ⟨(l.reverse.takeWhile isSp).reverse, ?_⟩
  unfold rtrim
  rw [← List.reverse_append]
  conv_lhs => rw [← l.reverse_reverse]
  rw [List.takeWhile_append_dropWhile]

theorem ltrim_rtrim (m : List Char) (h : ltrim m = m) : ltrim (rtrim m) = rtrim m := by
  rcases rtrim_prefix m with ⟨z, hz⟩
  cases hm : rtrim m with
  | nil => rfl
  | cons c m2 =>
    have hcm : m = c :: (m2 ++ z) := by rw [hz, hm]; simp
    have hcns : isSp c = false := by
      by_contra hcs
      simp only [Bool.not_eq_false] at hcs
      rw [hcm, ltrim, List.dropWhile_cons, if_pos (by rw [hcs])] at h
      have hlen : (List.dropWhile isSp (m2 ++ z)).length = (m2 ++ z).length + 1 := by
        rw [h, List.length_cons]
      have hle := length_dropWhile_le isSp (m2 ++ z)
      omega
    exact ltrim_of_head c m2 hcns

theorem strip_idem (l : List Char) : strip (strip l) = strip l := by
  unfold strip
  rw [ltrim_rtrim (ltrim l) (ltrim_idem l), rtrim_idem]

theorem mem_ltrim {c : Char} {l : List Char} (h : c ∈ ltrim l) : c ∈ l := by
  induction l with
  | nil => exact h
  | cons d t ih =>
    rw [ltrim, List.dropWhile_cons] at h
    by_cases hd : isSp d = true
    · rw [if_pos hd] at h
      exact List.mem_cons_of_mem d (ih h)
    · rw [if_neg hd] at h
      exact h

theorem mem_rtrim {c : Char} {l : List Char} (h : c ∈ rtrim l) : c ∈ l := by
  unfold rtrim at h
  rw [List.mem_reverse] at h
  have := mem_ltrim h
  rw [List.mem_reverse] at this
  exact this

theorem mem_strip {c : Char} {l : List Char} (h : c ∈ strip l) : c ∈ l :=
  mem_ltrim (mem_rtrim h)

theorem strip_append_left (x y : List Char) (c0 : Char) (x1 : List Char)
    (hx0 : x = c0 :: x1) (h0 : isSp c0 = false) (cn : Char) (x2 : List Char)
    (hxn : x = x2 ++ [cn]) (hn : isSp cn = false) :
    ∃ w, strip (x ++ y) = x ++ w := by
  have hl : ltrim (x ++ y) = x ++ y := by
    rw [hx0, List.cons_append]
    exact ltrim_of_head c0 (x1 ++ y) h0
  unfold strip
  rw [hl]
  unfold rtrim
  rw [List.reverse_append, List.dropWhile_append]
  by_cases he : (y.reverse.dropWhile isSp).isEmpty = true
  · rw [if_pos he]
    have hrx : x.reverse = cn :: x2.reverse := by rw [hxn]; simp
    rw [hrx, List.dropWhile_cons, if_neg (by rw [hn]; simp)]
    refine ⟨[], ?_⟩
    rw [← hrx, List.reverse_reverse, List.append_nil]
  · rw [if_neg he]
    refine ⟨(y.reverse.dropWhile isSp).reverse, ?_⟩
    rw [List.reverse_append, List.reverse_reverse]

/-! Uppercasing facts. -/

theorem upperL_append (a b : List Char) : upperL (a ++ b) = upperL a ++ upperL b :=
  List.map_append Char.toUpper a b

theorem upperL_cons (c : Char) (l : List Char) :
    upperL (c :: l) = c.toUpper :: upperL l := rfl

theorem allUpper_upperL (l : List Char) : allUpper (upperL l) := by
  intro c hc
  rcases List.mem_map.mp hc with ⟨d, _, rfl⟩
  exact toUpper_idem d

theorem entity_replaces_append (x y : List Char) (hx : '&' ∉ x) :
    entity_replaces (x ++ y) = x ++ entity_replaces y := by
  unfold entity_replaces
  rw [replaceAll_append_left ("&AMP;".data) (("&").data) '&' rfl x y hx,
    replaceAll_append_left ("&LT;".data) (("<").data) '&' rfl x _ hx,
    replaceAll_append_left ("&GT;".data) ((">").data) '&' rfl x _ hx,
    replaceAll_append_left ("&NBSP;".data) ((" ").data) '&' rfl x _ hx,
    replaceAll_append_left ("&QUOT;".data) (("\"").data) '&' rfl x _ hx]

theorem mem_entity_replaces {P : Char → Prop} (h1 : P '&') (h2 : P '<') (h3 : P '>')
    (h4 : P ' ') (h5 : P '"') {l : List Char} (hl : ∀ c ∈ l, P c) :
    ∀ c ∈ entity_replaces l, P c := by
  unfold entity_replaces replaceAll
  intro c hc
  refine mem_replaceAllGo (fun d hd => ?_) _ _ (fun d hd => ?_) c hc
  · rcases List.mem_singleton.mp hd with rfl; exact h5
  · refine mem_replaceAllGo (fun e he => ?_) _ _ (fun e he => ?_) d hd
    · rcases List.mem_singleton.mp he with rfl; exact h4
    · refine mem_replaceAllGo (fun f hf => ?_) _ _ (fun f hf => ?_) e he
      · rcases List.mem_singleton.mp hf with rfl; exact h3
      · refine mem_replaceAllGo (fun g hg => ?_) _ _ (fun g hg => ?_) f hf
        · rcases List.mem_singleton.mp hg with rfl; exact h2
        · refine mem_replaceAllGo (fun i hi => ?_) _ _ (fun i hi => ?_) g hg
          · rcases List.mem_singleton.mp hi with rfl; exact h1
          · exact hl i hi

theorem allUpper_clean (t : List Char) : allUpper (clean_text t) := by
  unfold clean_text
  by_cases ht : t = []
  · rw [if_pos ht]; intro c hc; cases hc
  · rw [if_neg ht]
    intro c hc
    have h1 := mem_strip hc
    refine @mem_entity_replaces (fun c => c.toUpper = c) (by decide) (by decide)
      (by decide) (by decide) (by decide) _ ?_ c h1
    exact @mem_collapseGo (fun c => c.toUpper = c) (by decide) false (upperL t) (allUpper_upperL t)

theorem wsSp_clean (t : List Char) : wsSp (clean_text t) := by
  unfold clean_text
  by_cases ht : t = []
  · rw [if_pos ht]; intro c hc; cases hc
  · rw [if_neg ht]
    intro c hc hsp
    have h1 := mem_strip hc
    refine @mem_entity_replaces (fun c => isSp c = true → c = ' ') (by decide) (by decide)
      (by decide) (by decide) (by decide) _ ?_ c h1 hsp
    exact wsSp_collapseGo false (upperL t)

theorem clean_append_space (a b : List Char)
    (ha : a ≠ [])
    (hlast : ∃ u c, upperL a = u ++ [c] ∧ isSp c = false)
    (hamp : '&' ∉ collapse (upperL a))
    (hhead : ∃ c0 x1, collapse (upperL a) = c0 :: x1 ∧ isSp c0 = false)
    (hlast2 : ∃ cn x2, collapse (upperL a) = x2 ++ [cn] ∧ isSp cn = false) :
    ∃ w, clean_text (a ++ ' ' :: b) = collapse (upperL a) ++ w := by
  rcases hlast with ⟨u, c, huc, hc⟩
  have hne : a ++ ' ' :: b ≠ [] := by
    cases a with
    | nil => exact absurd rfl ha
    | cons d t => simp
  rw [clean_text, if_neg hne, upperL_append, upperL_cons,
    show (' ' : Char).toUpper = ' ' from by decide, huc]
  have hK : collapse (upperL a) = collapseGo false (u ++ [c]) := by
    rw [collapse, huc]
  rw [List.append_assoc, List.singleton_append, collapse,
    collapseGo_append u c hc false (' ' :: upperL b), ← hK]
  rw [entity_replaces_append _ _ hamp]
  rw [show collapse (u ++ [c]) = collapse (upperL a) from by rw [huc]]
  rcases hhead with ⟨c0, x1, hx0, h0⟩
  rcases hlast2 with ⟨cn, x2, hxn, hn⟩
  exact strip_append_left _ _ c0 x1 hx0 h0 cn x2 hxn hn

/-! Deduplication facts (the ordered-dict loop of `extract_coupon_codes`). -/

theorem dedupStep_mem {acc : List (List Char × Nat × List Char)}
    {x e : List Char × Nat × List Char} (he : e ∈ dedupStep acc x) : e ∈ acc ∨ e = x := by
  unfold dedupStep at he
  by_cases h : acc.any (fun y => y.1 == x.1) = true
  · rw [if_pos h] at he
    rcases List.mem_map.mp he with ⟨y, hy, hrepl⟩
    by_cases hc : y.1 = x.1 ∧ y.2.1 < x.2.1
    · rw [if_pos hc] at hrepl; exact Or.inr hrepl.symm
    · rw [if_neg hc] at hrepl; exact Or.inl (hrepl ▸ hy)
  · rw [if_neg h] at he
    rcases List.mem_append.mp he with h1 | h1
    · exact Or.inl h1
    · exact Or.inr (List.mem_singleton.mp h1)

theorem foldl_dedup_pred {P : List Char × Nat × List Char → Prop} :
    ∀ (l acc : List (List Char × Nat × List Char)), (∀ e ∈ acc, P e) → (∀ e ∈ l, P e) →
      ∀ e ∈ l.foldl dedupStep acc, P e := by
  intro l
  induction l with
  | nil => intro acc hacc _ e he; exact hacc e he
  | cons x xs ih =>
    intro acc hacc hl e he
    rw [List.foldl_cons] at he
    refine ih (dedupStep acc x) ?_ (fun a ha => hl a (List.mem_cons_of_mem x ha)) e he
    intro a ha
    rcases dedupStep_mem ha with h | h
    · exact hacc a h
    · exact h ▸ hl x (List.mem_cons_self x xs)

theorem mem_dedup_codes {l : List (List Char × Nat × List Char)} :
    ∀ e ∈ dedup_codes l, e ∈ l := by
  unfold dedup_codes
  exact @foldl_dedup_pred (fun e => e ∈ l) l [] (fun e he => absurd he (List.not_mem_nil e))
    (fun e he => he)

theorem dedupStep_nodup {acc : List (List Char × Nat × List Char)}
    {x : List Char × Nat × List Char} (h : (acc.map (fun e => e.1)).Nodup) :
    ((dedupStep acc x).map (fun e => e.1)).Nodup := by
  unfold dedupStep
  by_cases hany : acc.any (fun y => y.1 == x.1) = true
  · rw [if_pos hany, List.map_map]
    have : acc.map ((fun e : List Char × Nat × List Char => e.1) ∘
        (fun y => if y.1 = x.1 ∧ y.2.1 < x.2.1 then x else y)) = acc.map (fun e => e.1) := by
      refine List.map_congr_left (fun a _ => ?_)
      by_cases hc : a.1 = x.1 ∧ a.2.1 < x.2.1
      · simp only [Function.comp_apply, if_pos hc]; exact hc.1.symm
      · simp only [Function.comp_apply, if_neg hc]
    rw [this]
    exact h
  · rw [if_neg hany, List.map_append]
    rw [List.nodup_append]
    refine ⟨h, List.nodup_singleton _, ?_⟩
    intro a ha hb
    rcases List.mem_singleton.mp (by simpa using hb) with rfl
    rcases List.mem_map.mp ha with ⟨y, hy, hfst⟩
    have := List.any_eq_false.mp (Bool.not_eq_true _ ▸ hany) y hy
    simp only [beq_iff_eq] at this
    exact this hfst

theorem dedup_codes_nodup (l : List (List Char × Nat × List Char)) :
    ((dedup_codes l).map (fun e => e.1)).Nodup := by
  unfold dedup_codes
  suffices h : ∀ (l acc : List (List Char × Nat × List Char)),
      (acc.map (fun e => e.1)).Nodup → ((l.foldl dedupStep acc).map (fun e => e.1)).Nodup by
    exact h l [] List.nodup_nil
  intro l
  induction l with
  | nil => intro acc hacc; exact hacc
  | cons x xs ih =>
    intro acc hacc
    rw [List.foldl_cons]
    exact ih (dedupStep acc x) (dedupStep_nodup hacc)

theorem dedupStep_bound {acc pre : List (List Char × Nat × List Char)}
    {x : List Char × Nat × List Char}
    (h1 : ∀ e ∈ acc, ∀ e2 ∈ pre, e2.1 = e.1 → e2.2.1 ≤ e.2.1)
    (h2 : ∀ e2 ∈ pre, ∃ e ∈ acc, e.1 = e2.1) :
    ∀ e ∈ dedupStep acc x, ∀ e2 ∈ pre ++ [x], e2.1 = e.1 → e2.2.1 ≤ e.2.1 := by
  intro e he e2 he2 heq
  unfold dedupStep at he
  by_cases hany : acc.any (fun y => y.1 == x.1) = true
  · rw [if_pos hany] at he
    rcases List.mem_map.mp he with ⟨y, hy, hrepl⟩
    rcases List.mem_append.mp he2 with hpre | hx
    · by_cases hc : y.1 = x.1 ∧ y.2.1 < x.2.1
      · rw [if_pos hc] at hrepl
        subst hrepl
        have : e2.1 = y.1 := by rw [heq, hc.1]
        exact Nat.le_trans (h1 y hy e2 hpre this) (Nat.le_of_lt hc.2)
      · rw [if_neg hc] at hrepl
        rw [← hrepl]
        rw [← hrepl] at heq
        exact h1 y hy e2 hpre heq
    · have he2x : e2 = x := List.mem_singleton.mp hx
      by_cases hc : y.1 = x.1 ∧ y.2.1 < x.2.1
      · rw [if_pos hc] at hrepl
        rw [← hrepl, he2x]
      · rw [if_neg hc] at hrepl
        rw [← hrepl]
        rw [← hrepl] at heq
        rcases Decidable.not_and_iff_or_not.mp hc with hne | hle
        · rw [he2x] at heq
          exact absurd heq.symm hne
        · rw [he2x]
          exact Nat.le_of_not_lt hle
  · rw [if_neg hany] at he
    have hacc : ∀ y ∈ acc, y.1 ≠ x.1 := by
      intro y hy
      have := List.any_eq_false.mp (Bool.not_eq_true _ ▸ hany) y hy
      simpa using this
    rcases List.mem_append.mp he with hin | hx
    · rcases List.mem_append.mp he2 with hpre | hxx
      · exact h1 e hin e2 hpre heq
      · have hx2 : e2 = x := List.mem_singleton.mp hxx
        rw [hx2] at heq
        exact absurd heq.symm (hacc e hin)
    · have hex : e = x := List.mem_singleton.mp hx
      rcases List.mem_append.mp he2 with hpre | hxx
      · rcases h2 e2 hpre with ⟨y, hy, hy1⟩
        rw [hex] at heq
        exact absurd (hy1.trans heq) (hacc y hy)
      · have hx2 : e2 = x := List.mem_singleton.mp hxx
        rw [hx2, hex]

theorem dedupStep_cover {acc pre : List (List Char × Nat × List Char)}
    {x : List Char × Nat × List Char}
    (h2 : ∀ e2 ∈ pre, ∃ e ∈ acc, e.1 = e2.1) :
    ∀ e2 ∈ pre ++ [x], ∃ e ∈ dedupStep acc x, e.1 = e2.1 := by
  intro e2 he2
  unfold dedupStep
  by_cases hany : acc.any (fun y => y.1 == x.1) = true
  · rw [if_pos hany]
    rcases List.mem_append.mp he2 with hpre | hx
    · rcases h2 e2 hpre with ⟨y, hy, hy1⟩
      by_cases hc : y.1 = x.1 ∧ y.2.1 < x.2.1
      · refine ⟨x, List.mem_map.mpr ⟨y, hy, by rw [if_pos hc]⟩, ?_⟩
        rw [← hc.1, hy1]
      · exact ⟨y, List.mem_map.mpr ⟨y, hy, by rw [if_neg hc]⟩, hy1⟩
    · have hx2 : e2 = x := List.mem_singleton.mp hx
      rcases List.any_eq_true.mp hany with ⟨y, hy, hyx⟩
      simp only [beq_iff_eq] at hyx
      by_cases hc : y.1 = x.1 ∧ y.2.1 < x.2.1
      · exact ⟨x, List.mem_map.mpr ⟨y, hy, by rw [if_pos hc]⟩, by rw [hx2]⟩
      · exact ⟨y, List.mem_map.mpr ⟨y, hy, by rw [if_neg hc]⟩, by rw [hx2]; exact hyx⟩
  · rw [if_neg hany]
    rcases List.mem_append.mp he2 with hpre | hx
    · rcases h2 e2 hpre with ⟨y, hy, hy1⟩
      exact ⟨y, List.mem_append_left _ hy, hy1⟩
    · have hx2 : e2 = x := List.mem_singleton.mp hx
      exact ⟨x, List.mem_append_right _ (List.mem_singleton_self x), by rw [hx2]⟩

theorem dedup_codes_max (l : List (List Char × Nat × List Char)) :
    ∀ e ∈ dedup_codes l, ∀ e2 ∈ l, e2.1 = e.1 → e2.2.1 ≤ e.2.1 := by
  unfold dedup_codes
  suffices h : ∀ (l acc pre : List (List Char × Nat × List Char)),
      (∀ e ∈ acc, ∀ e2 ∈ pre, e2.1 = e.1 → e2.2.1 ≤ e.2.1) →
      (∀ e2 ∈ pre, ∃ e ∈ acc, e.1 = e2.1) →
      ∀ e ∈ l.foldl dedupStep acc, ∀ e2 ∈ pre ++ l, e2.1 = e.1 → e2.2.1 ≤ e.2.1 by
    intro e he e2 he2 heq
    exact h l [] [] (fun a ha => absurd ha (List.not_mem_nil a))
      (fun a ha => absurd ha (List.not_mem_nil a)) e he e2 (by simpa using he2) heq
  intro l
  induction l with
  | nil =>
    intro acc pre h1 _ e he e2 he2 heq
    rw [List.append_nil] at he2
    exact h1 e he e2 he2 heq
  | cons x xs ih =>
    intro acc pre h1 h2 e he e2 he2 heq
    rw [List.foldl_cons] at he
    refine ih (dedupStep acc x) (pre ++ [x]) (dedupStep_bound h1 h2) (dedupStep_cover h2)
      e he e2 ?_ heq
    rw [List.append_assoc, List.singleton_append]
    exact he2

/-! Sorting facts (stable descending sort by confidence). -/

theorem mem_insertDesc {x z : CouponCode} : ∀ {l : List CouponCode},
    z ∈ insertDesc x l ↔ z = x ∨ z ∈ l := by
  intro l
  induction l with
  | nil => simp [insertDesc]
  | cons y ys ih =>
    unfold insertDesc
    by_cases h : x.confidence < y.confidence
    · rw [if_pos h]
      simp only [List.mem_cons, ih]
      tauto
    · rw [if_neg h]
      exact List.mem_cons

theorem insertDesc_perm (x : CouponCode) : ∀ l : List CouponCode,
    (insertDesc x l).Perm (x :: l) := by
  intro l
  induction l with
  | nil => exact List.Perm.refl _
  | cons y ys ih =>
    unfold insertDesc
    by_cases h : x.confidence < y.confidence
    · rw [if_pos h]
      exact (ih.cons y).trans (List.Perm.swap x y ys)
    · rw [if_neg h]

theorem sortDesc_perm : ∀ l : List CouponCode, (sortDesc l).Perm l := by
  intro l
  induction l with
  | nil => exact List.Perm.refl _
  | cons x xs ih =>
    unfold sortDesc
    exact (insertDesc_perm x (sortDesc xs)).trans (ih.cons x)

theorem mem_sortDesc {z : CouponCode} {l : List CouponCode} :
    z ∈ sortDesc l ↔ z ∈ l := (sortDesc_perm l).mem_iff

theorem insertDesc_sorted (x : CouponCode) : ∀ l : List CouponCode,
    List.Pairwise (fun a b : CouponCode => b.confidence ≤ a.confidence) l →
    List.Pairwise (fun a b : CouponCode => b.confidence ≤ a.confidence) (insertDesc x l) := by
  intro l
  induction l with
  | nil => intro _; exact List.pairwise_singleton _ _
  | cons y ys ih =>
    intro hl
    rcases List.pairwise_cons.mp hl with ⟨hy, hys⟩
    unfold insertDesc
    by_cases h : x.confidence < y.confidence
    · rw [if_pos h]
      refine List.pairwise_cons.mpr ⟨?_, ih hys⟩
      intro z hz
      rcases mem_insertDesc.mp hz with rfl | hzys
      · exact Nat.le_of_lt h
      · exact hy z hzys
    · rw [if_neg h]
      refine List.pairwise_cons.mpr ⟨?_, hl⟩
      intro z hz
      rcases List.mem_cons.mp hz with rfl | hzys
      · exact Nat.le_of_not_lt h
      · exact Nat.le_trans (hy z hzys) (Nat.le_of_not_lt h)

theorem sortDesc_sorted : ∀ l : List CouponCode,
    List.Pairwise (fun a b : CouponCode => b.confidence ≤ a.confidence) (sortDesc l) := by
  intro l
  induction l with
  | nil => exact List.Pairwise.nil
  | cons x xs ih => exact insertDesc_sorted x (sortDesc xs) ih

theorem filter_insertDesc (q : Nat) (x : CouponCode) : ∀ l : List CouponCode,
    (insertDesc x l).filter (fun cc => cc.confidence == q) =
      if x.confidence == q then x :: l.filter (fun cc => cc.confidence == q)
      else l.filter (fun cc => cc.confidence == q) := by
  intro l
  induction l with
  | nil =>
    unfold insertDesc
    by_cases h : x.confidence == q
    · rw [if_pos h]
      simp [List.filter_cons, h]
    · rw [if_neg h]
      simp [List.filter_cons, h]
  | cons y ys ih =>
    unfold insertDesc
    by_cases h : x.confidence < y.confidence
    · rw [if_pos h, List.filter_cons, List.filter_cons, ih]
      cases hy : (y.confidence == q) with
      | true =>
        have hyq : y.confidence = q := by simpa using hy
        have hxq : x.confidence ≠ q := by omega
        have hx : (x.confidence == q) = false := by simpa using hxq
        simp [hx]
      | false => simp
    · rw [if_neg h, List.filter_cons]

theorem filter_sortDesc (q : Nat) : ∀ l : List CouponCode,
    (sortDesc l).filter (fun cc => cc.confidence == q) =
      l.filter (fun cc => cc.confidence == q) := by
  intro l
  induction l with
  | nil => rfl
  | cons x xs ih =>
    unfold sortDesc
    rw [filter_insertDesc, List.filter_cons, ih]

/-! Unfolding of the top-level detection operation. -/

theorem detect_eq (subject body sender : List Char) (now : Nat) :
    detect_coupons_in_email subject body sender now =
      if extract_keywords (subject ++ ' ' :: body) = [] then []
      else
        sortDesc (build_coupons subject sender now
          (extract_keywords (subject ++ ' ' :: body))
          (extract_coupon_codes subject ++ extract_coupon_codes body)) := rfl

/-- C2: if no vocabulary keyword occurs (case-insensitively) in the cleaned
    concatenation of subject and body, then `is_promotional_email` returns
    false and `detect_coupons_in_email` returns the empty list. -/
theorem no_keyword_no_detection (s b : List Char)
    (h : ∀ k ∈ keywords, hasSubstr (clean_text (s ++ ' ' :: b)) (upperL k) = false) :
    is_promotional_email s b = false ∧
      ∀ (sender : List Char) (now : Nat), detect_coupons_in_email s b sender now = [] := by
  have hek : extract_keywords (s ++ ' ' :: b) = [] := by
    unfold extract_keywords
    rw [List.filter_eq_nil_iff]
    intro k hk
    rw [h k hk]
    simp
  refine ⟨?_, fun sender now => ?_⟩
  · unfold is_promotional_email
    rw [hek]
    rfl
  · rw [detect_eq, if_pos hek]

theorem no_keyword_no_detection_witness :
    is_promotional_email ("Your order has shipped".data) ("Tracking: 123456789".data) = false ∧
      detect_coupons_in_email ("Your order has shipped".data) ("Tracking: 123456789".data)
        [] 0 = [] := by
  have h := no_keyword_no_detection ("Your order has shipped".data)
    ("Tracking: 123456789".data) (by decide)
  exact ⟨h.1, h.2 [] 0⟩

/-- C3 counterexample: `clean_text` is not idempotent — decoding `&AMP;`
    can create a fresh `&AMP;` occurrence that a second pass decodes. -/
theorem clean_text_not_idem :
    clean_text (clean_text ("&&amp;amp;".data)) ≠ clean_text ("&&amp;amp;".data) := by decide

/-- C3 (amended): `clean_text` is idempotent on every input whose cleaned
    form contains no entity token and no two adjacent spaces (the two ways
    a second pass can still change the text). -/
theorem clean_text_idem_of_clean (t : List Char)
    (hent : ∀ p ∈ entity_pats, hasSubstr (clean_text t) p = false)
    (hsp : hasSubstr (clean_text t) [' ', ' '] = false) :
    clean_text (clean_text t) = clean_text t := by
  by_cases hu0 : clean_text t = []
  · rw [hu0]
    rfl
  · rw [clean_text, if_neg hu0]
    have hup : upperL (clean_text t) = clean_text t := by
      have hall := allUpper_clean t
      unfold upperL
      have : (clean_text t).map Char.toUpper = (clean_text t).map id :=
        List.map_congr_left (fun c hc => hall c hc)
      rw [this, List.map_id]
    rw [hup]
    have hcol : collapse (clean_text t) = clean_text t :=
      collapseGo_eq_self (clean_text t) (wsSp_clean t) hsp
    rw [hcol]
    have her : entity_replaces (clean_text t) = clean_text t := by
      unfold entity_replaces
      rw [replaceAll_of_not_sub ("&AMP;".data) _ _ (hent ("&AMP;".data) (by decide)),
        replaceAll_of_not_sub ("&LT;".data) _ _ (hent ("&LT;".data) (by decide)),
        replaceAll_of_not_sub ("&GT;".data) _ _ (hent ("&GT;".data) (by decide)),
        replaceAll_of_not_sub ("&NBSP;".data) _ _ (hent ("&NBSP;".data) (by decide)),
        replaceAll_of_not_sub ("&QUOT;".data) _ _ (hent ("&QUOT;".data) (by decide))]
    rw [her]
    have ht : t ≠ [] := by
      intro h0
      apply hu0
      rw [h0]
      rfl
    have hct : clean_text t = strip (entity_replaces (collapse (upperL t))) := by
      rw [clean_text, if_neg ht]
    rw [hct]
    exact strip_idem _

theorem clean_text_idem_witness :
    clean_text (clean_text ("  Hello &amp; World  ".data)) =
      clean_text ("  Hello &amp; World  ".data) :=
  clean_text_idem_of_clean _ (by decide) (by decide)

/-- C4: within one field, `extract_coupon_codes` returns pairwise distinct
    codes, each surviving entry is one of the scanned candidates, and its
    confidence is the maximum confidence any pattern occurrence assigned to
    that code in this field. -/
theorem extract_dedup_nodup_max (text : List Char) :
    ((extract_coupon_codes text).map (fun e => e.1)).Nodup ∧
      ∀ e ∈ extract_coupon_codes text, e ∈ scan_candidates text ∧
        ∀ e2 ∈ scan_candidates text, e2.1 = e.1 → e2.2.1 ≤ e.2.1 := by
  unfold extract_coupon_codes
  exact ⟨dedup_codes_nodup _,
    fun e he => ⟨mem_dedup_codes e he, dedup_codes_max _ e he⟩⟩

theorem extract_dedup_nodup_max_witness : (100 : Nat) ≤ 100 := by
  have h := (extract_dedup_nodup_max ("Use Code SAVE25NOW".data)).2
    (("SAVE25NOW".data, 100, "USE CODE SAVE25NOW".data)) (by decide)
  exact h.2 (("SAVE25NOW".data, 100, "USE CODE SAVE25NOW".data)) (by decide) rfl

/-- C5: the detection result is sorted by descending confidence, and the
    sort is stable: for every confidence value, the entries carrying it
    appear exactly as in the pre-sort list (subject-field results before
    body-field results, each in insertion order). -/
theorem detect_sorted_and_stable (s b sender : List Char) (now : Nat) :
    List.Pairwise (fun a c : CouponCode => c.confidence ≤ a.confidence)
      (detect_coupons_in_email s b sender now) ∧
      ∀ q : Nat,
        (detect_coupons_in_email s b sender now).filter (fun cc => cc.confidence == q) =
          (if extract_keywords (s ++ ' ' :: b) = [] then ([] : List CouponCode)
           else build_coupons s sender now (extract_keywords (s ++ ' ' :: b))
             (extract_coupon_codes s ++ extract_coupon_codes b)).filter
            (fun cc => cc.confidence == q) := by
  rw [detect_eq]
  by_cases hk : extract_keywords (s ++ ' ' :: b) = []
  · rw [if_pos hk]
    exact ⟨List.Pairwise.nil, fun q => by rw [if_pos hk]⟩
  · rw [if_neg hk]
    exact ⟨sortDesc_sorted _, fun q => by rw [if_neg hk]; exact filter_sortDesc q _⟩

/-! Candidate-level facts. -/

theorem cand_spec {text ct : List Char} {r : RE} {m : Nat × Nat × Option Span}
    {e : List Char × Nat × List Char} (h : candFromMatch text ct r m = some e) :
    e.1 ∉ false_positives ∧ 4 ≤ e.1.length ∧ e.1.length ≤ 15 ∧
      ((isDigitAll e.1 = true ∨ isAlphaAll e.1 = true) → 6 ≤ e.1.length) ∧
      e.2.1 = calculate_confidence e.1 text ct ∧
      e.1 = matchCode ct r m.1 m.2.1 m.2.2 := by
  simp only [candFromMatch] at h
  by_cases hA : matchCode ct r m.1 m.2.1 m.2.2 ∈ false_positives
  · rw [if_pos hA] at h; cases h
  · rw [if_neg hA] at h
    by_cases hB : (matchCode ct r m.1 m.2.1 m.2.2).length < 4 ∨
        15 < (matchCode ct r m.1 m.2.1 m.2.2).length
    · rw [if_pos hB] at h; cases h
    · rw [if_neg hB] at h
      by_cases hC : (isDigitAll (matchCode ct r m.1 m.2.1 m.2.2) = true ∨
          isAlphaAll (matchCode ct r m.1 m.2.1 m.2.2) = true) ∧
          (matchCode ct r m.1 m.2.1 m.2.2).length < 6
      · rw [if_pos hC] at h; cases h
      · rw [if_neg hC] at h
        have he := Option.some.inj h
        rw [← he]
        rcases not_or.mp hB with ⟨hB1, hB2⟩
        refine ⟨hA, Nat.le_of_not_lt hB1, Nat.le_of_not_lt hB2, ?_, rfl, rfl⟩
        intro hd
        by_contra hlt
        exact hC ⟨hd, Nat.lt_of_not_le hlt⟩

theorem mem_scan_candidates {text : List Char} {e : List Char × Nat × List Char}
    (he : e ∈ scan_candidates text) :
    ∃ r ∈ coupon_patterns, ∃ m ∈ finditer (clean_text text) r,
      candFromMatch text (clean_text text) r m = some e := by
  unfold scan_candidates at he
  rcases List.mem_flatMap.mp he with ⟨r, hr, hm⟩
  rcases List.mem_filterMap.mp hm with ⟨m, hmm, hcand⟩
  exact ⟨r, hr, m, hmm, hcand⟩

/-- C6: every code returned by `extract_coupon_codes` passes the three
    filters: it is not in the false-positive lexicon, its length lies in
    [4, 15], and if it is purely numeric or purely alphabetic then its
    length is at least 6. -/
theorem extract_codes_filtered (text : List Char) :
    ∀ e ∈ extract_coupon_codes text,
      e.1 ∉ false_positives ∧ 4 ≤ e.1.length ∧ e.1.length ≤ 15 ∧
        ((isDigitAll e.1 = true ∨ isAlphaAll e.1 = true) → 6 ≤ e.1.length) := by
  intro e he
  have hs : e ∈ scan_candidates text := mem_dedup_codes e he
  rcases mem_scan_candidates hs with ⟨r, _, m, _, hcand⟩
  have h := cand_spec hcand
  exact ⟨h.1, h.2.1, h.2.2.1, h.2.2.2.1⟩

theorem extract_codes_filtered_witness :
    ("SAVE25NOW".data ∉ false_positives ∧ 4 ≤ ("SAVE25NOW".data).length ∧
      ("SAVE25NOW".data).length ≤ 15 ∧
      ((isDigitAll ("SAVE25NOW".data) = true ∨ isAlphaAll ("SAVE25NOW".data) = true) →
        6 ≤ ("SAVE25NOW".data).length)) :=
  extract_codes_filtered ("Use Code SAVE25NOW".data)
    (("SAVE25NOW".data, 100, "USE CODE SAVE25NOW".data)) (by decide)

/-! Confidence bounds. -/

theorem minN_le_right (a b : Nat) : minN a b ≤ b := by
  unfold minN
  split
  · assumption
  · exact Nat.le_refl b

theorem calc_le_100 (c o t : List Char) : calculate_confidence c o t ≤ 100 := by
  unfold calculate_confidence
  exact minN_le_right _ 100

theorem calc_ge_60 {c : List Char} (o t : List Char) (h : matchCapsAlnum c = true) :
    60 ≤ calculate_confidence c o t := by
  simp only [calculate_confidence, minN, h, if_true]
  split_ifs <;> omega

theorem confQ_nonneg (n : Nat) : 0 ≤ confQ n := by
  unfold confQ
  positivity

theorem confQ_le_one {n : Nat} (h : n ≤ 100) : confQ n ≤ 1 := by
  unfold confQ
  rw [div_le_one (by norm_num)]
  exact_mod_cast h

theorem confQ_ge_threshold {n m : Nat} (h : m ≤ n) : (m : ℚ) / 100 ≤ confQ n := by
  unfold confQ
  have hm : (m : ℚ) ≤ (n : ℚ) := by exact_mod_cast h
  exact div_le_div_of_nonneg_right hm (by norm_num)

theorem mem_detect_scan {s b sender : List Char} {now : Nat} {cc : CouponCode}
    (h : cc ∈ detect_coupons_in_email s b sender now) :
    ∃ (text : List Char) (e : List Char × Nat × List Char),
      e ∈ scan_candidates text ∧ cc.code = e.1 ∧ cc.confidence = e.2.1 := by
  rw [detect_eq] at h
  by_cases hk : extract_keywords (s ++ ' ' :: b) = []
  · rw [if_pos hk] at h
    cases h
  · rw [if_neg hk] at h
    have h2 := mem_sortDesc.mp h
    unfold build_coupons at h2
    rcases List.mem_map.mp h2 with ⟨e, he, hcc⟩
    rcases List.mem_append.mp he with h3 | h3
    · exact ⟨s, e, mem_dedup_codes e h3, by rw [← hcc], by rw [← hcc]⟩
    · exact ⟨b, e, mem_dedup_codes e h3, by rw [← hcc], by rw [← hcc]⟩

theorem scan_conf_spec {text : List Char} {e : List Char × Nat × List Char}
    (he : e ∈ scan_candidates text) :
    e.2.1 = calculate_confidence e.1 text (clean_text text) ∧ 4 ≤ e.1.length := by
  rcases mem_scan_candidates he with ⟨r, _, m, _, hcand⟩
  have h := cand_spec hcand
  exact ⟨h.2.2.2.2.1, h.2.1⟩

/-- C7: the confidence score is always in the real interval [0, 1], both
    as a function (`calculate_confidence`) and on every detected code
    returned by `detect_coupons_in_email`. -/
theorem confidence_unit_interval :
    (∀ code original cleanT : List Char,
        0 ≤ confQ (calculate_confidence code original cleanT) ∧
          confQ (calculate_confidence code original cleanT) ≤ 1) ∧
      ∀ (s b sender : List Char) (now : Nat) (cc : CouponCode),
        cc ∈ detect_coupons_in_email s b sender now →
          0 ≤ confQ cc.confidence ∧ confQ cc.confidence ≤ 1 := by
  refine ⟨fun code o t => ⟨confQ_nonneg _, confQ_le_one (calc_le_100 code o t)⟩, ?_⟩
  intro s b sender now cc hcc
  rcases mem_detect_scan hcc with ⟨text, e, he, _, hconf⟩
  rcases scan_conf_spec he with ⟨hval, _⟩
  rw [hconf, hval]
  exact ⟨confQ_nonneg _, confQ_le_one (calc_le_100 _ _ _)⟩

theorem confidence_unit_interval_witness :
    (0 : ℚ) ≤ confQ 100 ∧ confQ (100 : Nat) ≤ 1 := by
  refine confidence_unit_interval.2 ("Use code SAVE25NOW now".data)
    ("Use code SAVE25NOW now".data) ("x@y.z".data) 0
    { code := "SAVE25NOW".data, confidence := 100,
      context := "USE CODE SAVE25NOW NOW".data,
      email_subject := "Use code SAVE25NOW now".data,
      source := "x@y.z".data, detected_at := 0,
      keywords_found := (["save", "code", "use code"] : List String).map String.data }
    (by decide)

/-! Statistics facts. -/

theorem sum_confQ (l : List CouponCode) :
    (l.map (fun c => confQ c.confidence)).sum =
      ((l.map CouponCode.confidence).sum : ℚ) / 100 := by
  unfold confQ
  induction l with
  | nil => simp
  | cons x xs ih =>
    rw [List.map_cons, List.sum_cons, List.map_cons, List.sum_cons, ih, Nat.cast_add, add_div]

/-- C8 counterexample: on the empty list the statistics dict has only
    three keys — there is no `codes_by_confidence` entry at all, so the
    claimed four-field shape (with an empty per-code list) is wrong. -/
theorem stats_empty_three_fields :
    (get_detection_stats []).lookup ("codes_by_confidence".data) = none := by decide

/-- C8 (amended): `get_detection_stats []` returns the three-field summary
    (count 0, average 0, no keywords) without a `codes_by_confidence`
    entry; on a non-empty list the count is the length, the average
    confidence is the arithmetic mean of the confidences rounded to two
    decimals (ties to even), and the per-code pairs are listed in the
    input's existing order. -/
theorem stats_summary :
    get_detection_stats [] =
      [("total_codes".data, StatVal.nat 0), ("avg_confidence".data, StatVal.num 0),
       ("keywords_found".data, StatVal.kwList [])] ∧
    ∀ l : List CouponCode, l ≠ [] →
      (get_detection_stats l).lookup ("total_codes".data) = some (StatVal.nat l.length) ∧
      (get_detection_stats l).lookup ("avg_confidence".data) =
        some (StatVal.num (round2
          ((l.map (fun c => confQ c.confidence)).sum / (l.length : ℚ)))) ∧
      (get_detection_stats l).lookup ("codes_by_confidence".data) =
        some (StatVal.codeList (l.map (fun c => (c.code, c.confidence)))) := by
  refine ⟨rfl, fun l hl => ?_⟩
  have hstats : get_detection_stats l =
      [("total_codes".data, StatVal.nat l.length),
       ("avg_confidence".data,
         StatVal.num (round2 (((l.map CouponCode.confidence).sum : ℚ) / 100 / (l.length : ℚ)))),
       ("keywords_found".data,
         StatVal.kwList (uniqueList (l.flatMap CouponCode.keywords_found))),
       ("codes_by_confidence".data,
         StatVal.codeList (l.map (fun c => (c.code, c.confidence))))] := by
    rw [get_detection_stats, if_neg hl]
  rw [hstats]
  refine ⟨rfl, ?_, rfl⟩
  have harg : ((l.map CouponCode.confidence).sum : ℚ) / 100 / (l.length : ℚ) =
      (l.map (fun c => confQ c.confidence)).sum / (l.length : ℚ) := by
    rw [sum_confQ]
  rw [show (List.lookup ("avg_confidence".data)
      [("total_codes".data, StatVal.nat l.length),
       ("avg_confidence".data,
         StatVal.num (round2 (((l.map CouponCode.confidence).sum : ℚ) / 100 / (l.length : ℚ)))),
       ("keywords_found".data,
         StatVal.kwList (uniqueList (l.flatMap CouponCode.keywords_found))),
       ("codes_by_confidence".data,
         StatVal.codeList (l.map (fun c => (c.code, c.confidence))))]) =
      some (StatVal.num (round2
        (((l.map CouponCode.confidence).sum : ℚ) / 100 / (l.length : ℚ)))) from rfl, harg]

theorem stats_summary_witness :
    (get_detection_stats [(⟨"SAVE25NOW".data, 70, [], [], [], 0, []⟩ : CouponCode)]).lookup
        ("avg_confidence".data) =
      some (StatVal.num (round2
        (([(⟨"SAVE25NOW".data, 70, [], [], [], 0, []⟩ : CouponCode)].map
            (fun c => confQ c.confidence)).sum /
          (([(⟨"SAVE25NOW".data, 70, [], [], [], 0, []⟩ : CouponCode)] :
            List CouponCode).length : ℚ)))) :=
  (stats_summary.2 [(⟨"SAVE25NOW".data, 70, [], [], [], 0, []⟩ : CouponCode)]
    (by simp)).2.1

/-! Cross-field duplication facts. -/

theorem countP_code_one {l : List (List Char × Nat × List Char)} {c : List Char}
    (hnd : (l.map (fun e => e.1)).Nodup) (hmem : ∃ q x, (c, q, x) ∈ l) :
    l.countP (fun e => e.1 == c) = 1 := by
  induction l with
  | nil => rcases hmem with ⟨q, x, hm⟩; cases hm
  | cons e0 tl ih =>
    rcases hmem with ⟨q, x, hm⟩
    rw [List.map_cons] at hnd
    rcases List.nodup_cons.mp hnd with ⟨hnotin, hnd2⟩
    rw [List.countP_cons]
    by_cases he : e0.1 = c
    · have h0 : tl.countP (fun e => e.1 == c) = 0 := by
        rw [List.countP_eq_zero]
        intro a ha hba
        have ha1 : a.1 = c := by simpa using hba
        exact hnotin (List.mem_map.mpr ⟨a, ha, by rw [ha1, he]⟩)
      rw [h0]
      simp [he]
    · have hm2 : (c, q, x) ∈ tl := by
        rcases List.mem_cons.mp hm with h | h
        · exfalso
          apply he
          rw [← h]
        · exact h
      rw [ih hnd2 ⟨q, x, hm2⟩]
      simp [he]

/-- C9 counterexample: with subject = body = "XY1234", the code XY1234 is
    in the extraction result of both fields, yet `detect_coupons_in_email`
    returns no entry at all (the keyword gate fails), so the claim "two
    entries appear" is false without a keyword-gate hypothesis. -/
theorem cross_field_dup_cex :
    (("XY1234".data, 70, "XY1234".data) ∈ extract_coupon_codes ("XY1234".data)) ∧
      (("XY1234".data, 70, "XY1234".data) ∈ extract_coupon_codes ("XY1234".data)) ∧
      ((detect_coupons_in_email ("XY1234".data) ("XY1234".data) [] 0).filter
          (fun cc => cc.code == "XY1234".data)).length = 0 := by decide

/-- C9 (amended): provided at least one promotional keyword occurs in
    subject + body (so the gate passes), a code extracted from both the
    subject and the body yields exactly two entries with that code in the
    detection result — no cross-field deduplication is performed. -/
theorem cross_field_dup_two_entries (s b sender c : List Char) (now : Nat)
    (hk : extract_keywords (s ++ ' ' :: b) ≠ [])
    (hs : ∃ q x, (c, q, x) ∈ extract_coupon_codes s)
    (hb : ∃ q x, (c, q, x) ∈ extract_coupon_codes b) :
    ((detect_coupons_in_email s b sender now).filter
      (fun cc => cc.code == c)).length = 2 := by
  rw [detect_eq, if_neg hk, ← List.countP_eq_length_filter]
  rw [(sortDesc_perm _).countP_eq]
  unfold build_coupons
  rw [List.countP_map]
  show ((extract_coupon_codes s ++ extract_coupon_codes b).countP (fun e => e.1 == c)) = 2
  rw [List.countP_append,
    countP_code_one (show ((extract_coupon_codes s).map (fun e => e.1)).Nodup from
      dedup_codes_nodup _) hs,
    countP_code_one (show ((extract_coupon_codes b).map (fun e => e.1)).Nodup from
      dedup_codes_nodup _) hb]

theorem cross_field_dup_two_entries_witness :
    ((detect_coupons_in_email ("Use code SAVE25NOW now".data)
        ("Use code SAVE25NOW now".data) ("x@y.z".data) 0).filter
      (fun cc => cc.code == "SAVE25NOW".data)).length = 2 :=
  cross_field_dup_two_entries _ _ _ _ 0 (by decide)
    ⟨100, "USE CODE SAVE25NOW NOW".data, by decide⟩
    ⟨100, "USE CODE SAVE25NOW NOW".data, by decide⟩

/-- C1: for the subject "🎉 Exclusive 25% OFF - Use Code SAVE25NOW", any
    body and the sender "deals@fashionstore.com", the detection result
    contains an entry whose code is SAVE25NOW with confidence at least 0.8
    (here in fact 1.0: the subject field alone already maxes the score). -/
theorem detect_save25now_any_body (body : List Char) (now : Nat) :
    ∃ cc ∈ detect_coupons_in_email ("🎉 Exclusive 25% OFF - Use Code SAVE25NOW".data)
        body ("deals@fashionstore.com".data) now,
      cc.code = "SAVE25NOW".data ∧ (8 : ℚ) / 10 ≤ confQ cc.confidence := by
  have hclean := clean_append_space ("🎉 Exclusive 25% OFF - Use Code SAVE25NOW".data) body
    (by decide)
    ⟨"🎉 EXCLUSIVE 25% OFF - USE CODE SAVE25NO".data, 'W', by decide, by decide⟩
    (by decide)
    ⟨'🎉', " EXCLUSIVE 25% OFF - USE CODE SAVE25NOW".data, by decide, by decide⟩
    ⟨'W', "🎉 EXCLUSIVE 25% OFF - USE CODE SAVE25NO".data, by decide, by decide⟩
  rcases hclean with ⟨w, hw⟩
  have hsave : hasSubstr
      (clean_text ("🎉 Exclusive 25% OFF - Use Code SAVE25NOW".data ++ ' ' :: body))
      (upperL ("save".data)) = true := by
    rw [hw]
    exact hasSubstr_append_right w (by decide)
  have hkw : extract_keywords
      ("🎉 Exclusive 25% OFF - Use Code SAVE25NOW".data ++ ' ' :: body) ≠ [] := by
    have hmem : ("save".data) ∈ extract_keywords
        ("🎉 Exclusive 25% OFF - Use Code SAVE25NOW".data ++ ' ' :: body) :=
      List.mem_filter.mpr ⟨by decide, hsave⟩
    exact List.ne_nil_of_mem hmem
  rw [detect_eq, if_neg hkw]
  have htup : (("SAVE25NOW".data, 100, "25% OFF - USE CODE SAVE25NOW".data) ∈
      extract_coupon_codes ("🎉 Exclusive 25% OFF - Use Code SAVE25NOW".data)) := by decide
  refine
    ⟨{ code := "SAVE25NOW".data, confidence := 100,
       context := "25% OFF - USE CODE SAVE25NOW".data,
       email_subject := "🎉 Exclusive 25% OFF - Use Code SAVE25NOW".data,
       source := if ("deals@fashionstore.com".data : List Char) = [] then ("Unknown".data)
         else "deals@fashionstore.com".data,
       detected_at := now,
       keywords_found := extract_keywords
         ("🎉 Exclusive 25% OFF - Use Code SAVE25NOW".data ++ ' ' :: body) }, ?_, rfl, ?_⟩
  · rw [mem_sortDesc]
    unfold build_coupons
    exact List.mem_map_of_mem _ (List.mem_append_left _ htup)
  · show (8 : ℚ) / 10 ≤ confQ 100
    norm_num [confQ]

theorem calc_ge_50 (c o t : List Char) : 50 ≤ calculate_confidence c o t := by
  simp only [calculate_confidence, minN]
  split_ifs <;> omega

/-- C10 counterexample: Python's `\d` matches any Unicode decimal digit
    while the verification regex `^[A-Z0-9]+$` is ASCII-only, so the
    all-caps-alphanumeric bonus is not unconditional.  Subject "sale!"
    passes the keyword gate via "sale" and contributes no code of its own;
    the body token pairs four ASCII capitals with eight Arabic-Indic
    digits, so pattern 11 (`\b[A-Z]{2,4}\d{4,8}\b`) captures it, the caps
    check fails, no other bonus applies, and the 12-character length adds
    only 0.05: the detected coupon scores 0.55 < 0.6, refuting the
    claimed floor. -/
theorem detect_unicode_digit_cex :
    ((detect_coupons_in_email ("sale!".data) ("ABCD٣٤٥٦٧٨٩٠".data) [] 0).map
        (fun cc => (cc.code, cc.confidence)) = [("ABCD٣٤٥٦٧٨٩٠".data, 55)] ∧
      matchCapsAlnum ("ABCD٣٤٥٦٧٨٩٠".data) = false) ∧
      confQ 55 < 3 / 5 := by
  refine ⟨by decide, ?_⟩
  norm_num [confQ]

/-- C10 (implicit, corrected): the confidence of every coupon returned by
    `detect_coupons_in_email` lies in [0.5, 1.0], and the claimed 0.6
    floor holds exactly for coupons whose code matches `^[A-Z0-9]+$`.  The
    floor is not unconditional: a code captured through a `\d` class may
    contain non-ASCII decimal digits, fail the caps check, and miss the
    +0.1 bonus. -/
theorem detect_confidence_floor (s b sender : List Char) (now : Nat) :
    ∀ cc ∈ detect_coupons_in_email s b sender now,
      (1 : ℚ) / 2 ≤ confQ cc.confidence ∧ confQ cc.confidence ≤ 1 ∧
        (matchCapsAlnum cc.code = true → (3 : ℚ) / 5 ≤ confQ cc.confidence) := by
  intro cc hcc
  rcases mem_detect_scan hcc with ⟨text, e, he, hcode, hconf⟩
  obtain ⟨hval, h4⟩ := scan_conf_spec he
  refine ⟨?_, ?_, ?_⟩
  · rw [hconf, hval]
    calc (1 : ℚ) / 2 = (50 : ℚ) / 100 := by norm_num
    _ ≤ confQ (calculate_confidence e.1 text (clean_text text)) :=
      confQ_ge_threshold (calc_ge_50 e.1 text (clean_text text))
  · rw [hconf, hval]
    exact confQ_le_one (calc_le_100 _ _ _)
  · intro hcaps
    rw [hcode] at hcaps
    rw [hconf, hval]
    calc (3 : ℚ) / 5 = (60 : ℚ) / 100 := by norm_num
    _ ≤ confQ (calculate_confidence e.1 text (clean_text text)) :=
      confQ_ge_threshold (calc_ge_60 text (clean_text text) hcaps)

theorem detect_confidence_floor_witness :
    (1 : ℚ) / 2 ≤ confQ 100 ∧ confQ 100 ≤ 1 ∧
      (matchCapsAlnum ("SAVE25NOW".data) = true → (3 : ℚ) / 5 ≤ confQ 100) :=
  detect_confidence_floor ("Use code SAVE25NOW now".data) ("Use code SAVE25NOW now".data)
    ("x@y.z".data) 0
    { code := "SAVE25NOW".data, confidence := 100,
      context := "USE CODE SAVE25NOW NOW".data,
      email_subject := "Use code SAVE25NOW now".data,
      source := "x@y.z".data, detected_at := 0,
      keywords_found := extract_keywords
        ("Use code SAVE25NOW now".data ++ ' ' :: "Use code SAVE25NOW now".data) }
    (by decide)

end CouponDetector
